import Mathlib

/-!
# Verification of the YANG primary-key extraction pipeline

Shallow embedding of `extract_primary_keys.py`: the archive-member
selector (`extract_yang_files`), the per-file declaration extractor
(`extract_keys_using_regex`, a hand-rolled engine for the Python regex
`list\s+(\w+)\s*{[^{]*?key\s+"([^"]+)"` with `re.finditer` semantics),
the aggregator (`extract_primary_keys_from_zip`, Python `dict.update`
merge), and the `main` driver's error handling, together with theorems
settling the specification's claims about them.

Strings are modelled as `List Char`; Python dicts as insertion-ordered
association lists.  Character classes (`\s`, `\w`) are modelled over the
ASCII range, which covers every string manipulated here.
-/

set_option maxHeartbeats 1000000

namespace YangExtract

/-- Python's `\s` character class (and `str.split`/`str.strip` whitespace),
restricted to the ASCII range: space, tab, newline, carriage return,
vertical tab, form feed. -/
def isPySpace (c : Char) : Bool :=
  c == ' ' || c == '\t' || c == '\n' || c == '\r' || c == '\x0b' || c == '\x0c'

/-- Python's `\w` character class restricted to ASCII: letters, digits, underscore. -/
def isWordChar (c : Char) : Bool :=
  c.isAlphanum || c == '_'

/-- Python `str.strip()`: drop leading and trailing whitespace. -/
def pyStrip (s : List Char) : List Char :=
  ((s.dropWhile isPySpace).reverse.dropWhile isPySpace).reverse

/-- Accumulator-passing worker for `pySplit`. -/
def pySplitAux : List Char → List Char → List (List Char)
  | acc, [] => if acc.isEmpty then [] else [acc.reverse]
  | acc, c :: cs =>
    if isPySpace c then
      if acc.isEmpty then pySplitAux [] cs else acc.reverse :: pySplitAux [] cs
    else
      pySplitAux (c :: acc) cs

/-- Python `str.split()` with no argument: split on runs of whitespace,
discarding empty tokens. -/
def pySplit (s : List Char) : List (List Char) :=
  pySplitAux [] s

/-- The dynamically typed value stored in the Python result dict: a single
string for a one-field key, or a list of strings for a multi-field key. -/
inductive PyVal where
  | str : String → PyVal
  | list : List String → PyVal
deriving DecidableEq, Repr

/-- `key_value.strip().split()` from lines 63-66 of the source. -/
def keyTokens (kv : List Char) : List String :=
  (pySplit (pyStrip kv)).map String.mk

/-- Lines 66-70 of the source: one token is stored as a scalar string,
any other number of tokens (including zero) as a list. -/
def processKey (kv : List Char) : PyVal :=
  let keys := keyTokens kv
  if keys.length = 1 then PyVal.str keys.headI else PyVal.list keys

/-- Match a literal character sequence at the head of the input, returning
the remainder on success. -/
def matchLit : List Char → List Char → Option (List Char)
  | [], cs => some cs
  | _ :: _, [] => none
  | l :: ls, c :: cs => if c == l then matchLit ls cs else none

/-- Try to match the regex fragment `key\s+"([^"]+)"` at the current
position, returning the captured quoted string and the remainder after the
closing quote.  The greedy `\s+` and `([^"]+)` need no backtracking: the
character after a maximal whitespace run is not whitespace, hence equals
`"` or fails, and similarly for the maximal non-quote run. -/
def tryKeyTail (cs : List Char) : Option (List Char × List Char) :=
  match matchLit ['k', 'e', 'y'] cs with
  | none => none
  | some cs1 =>
    if (cs1.takeWhile isPySpace).isEmpty then none
    else
      match cs1.dropWhile isPySpace with
      | '"' :: cs3 =>
        if (cs3.takeWhile (fun c => c != '"')).isEmpty then none
        else
          match cs3.dropWhile (fun c => c != '"') with
          | '"' :: rest => some (cs3.takeWhile (fun c => c != '"'), rest)
          | _ => none
      | _ => none

/-- The lazy fragment `[^{]*?key\s+"([^"]+)"`: expand the lazy quantifier one
non-open-brace character at a time, trying the tail at each position. -/
def lazyKeyScan : List Char → Option (List Char × List Char)
  | [] => tryKeyTail []
  | c :: rest =>
    match tryKeyTail (c :: rest) with
    | some r => some r
    | none => if c == '{' then none else lazyKeyScan rest

/-- Match the full pattern `list\s+(\w+)\s*{[^{]*?key\s+"([^"]+)"` anchored at
the current position, returning the two captured groups (entity name, raw
key string) and the remainder after the match.  The greedy `\s+`, `(\w+)`
and `\s*` pieces are maximal runs; since `\s`, `\w` and the following
literal characters are pairwise disjoint, no backtracking can occur. -/
def matchAt (cs : List Char) : Option ((List Char × List Char) × List Char) :=
  match matchLit ['l', 'i', 's', 't'] cs with
  | none => none
  | some cs1 =>
    if (cs1.takeWhile isPySpace).isEmpty then none
    else if (((cs1.dropWhile isPySpace).takeWhile isWordChar)).isEmpty then none
    else
      match ((cs1.dropWhile isPySpace).dropWhile isWordChar).dropWhile isPySpace with
      | '{' :: cs5 =>
        match lazyKeyScan cs5 with
        | some (kv, rest) => some (((cs1.dropWhile isPySpace).takeWhile isWordChar, kv), rest)
        | none => none
      | _ => none

/-- Fuel-indexed worker for `findAll`.  `re.finditer`: try the pattern at
every position from left to right; on a match, emit it and resume after the
matched text (matches never overlap and are never empty here). -/
def findAllAux : Nat → List Char → List (List Char × List Char)
  | 0, _ => []
  | n + 1, cs =>
    match matchAt cs with
    | some (r, after) => r :: findAllAux n after
    | none =>
      match cs with
      | [] => []
      | _ :: rest => findAllAux n rest

/-- All matches of the list-declaration pattern in a text, in order:
`re.finditer(list_pattern, content, re.DOTALL)` from line 59.  (`re.DOTALL`
only affects `.`, which the pattern does not contain; `[^{]` and `[^"]`
match newlines regardless.)  The fuel `cs.length` is sufficient because each
step consumes at least one character. -/
def findAll (cs : List Char) : List (List Char × List Char) :=
  findAllAux cs.length cs

/-- Python dict assignment `d[k] = v` on an insertion-ordered association
list: overwrite the value at an existing key in place, otherwise append. -/
def dictInsert : List (String × PyVal) → String → PyVal → List (String × PyVal)
  | [], k, v => [(k, v)]
  | p :: d, k, v => if p.1 = k then (k, v) :: d else p :: dictInsert d k v

/-- Python dict lookup `d[k]` (as an `Option`). -/
def dictLookup (k : String) : List (String × PyVal) → Option PyVal
  | [] => none
  | p :: d => if p.1 = k then some p.2 else dictLookup k d

/-- Python `d.update(other)`: assign every entry of `other` into `d`, in order. -/
def dictUpdate (d other : List (String × PyVal)) : List (String × PyVal) :=
  other.foldl (fun acc p => dictInsert acc p.1 p.2) d

/-- The keys of a dict, in insertion order. -/
def dictKeys (d : List (String × PyVal)) : List String :=
  d.map Prod.fst

/-- `extract_keys_using_regex` (lines 46-78), happy path: all matches of the
pattern folded into a dict, each key string processed by lines 63-70. -/
def extract_keys_using_regex (content : String) : List (String × PyVal) :=
  (findAll content.data).foldl
    (fun d m => dictInsert d (String.mk m.1) (processKey m.2)) []

/-- The regex fragment `\.yang$` under Python `re` semantics: the literal
`.yang` must be followed by the end of the string, or by a single newline
that ends the string (`$` matches just before a trailing newline). -/
def yangTailMatch (t : List Char) : Bool :=
  t == ['.', 'y', 'a', 'n', 'g'] || t == ['.', 'y', 'a', 'n', 'g', '\n']

/-- The regex fragment `.*` (without `re.DOTALL`, so `.` excludes newlines)
followed by a continuation `p`: succeeds if some split consumes only
non-newline characters before a position where `p` succeeds. -/
def dotStarThen (p : List Char → Bool) : List Char → Bool
  | [] => p []
  | c :: rest => p (c :: rest) || ((c != '\n') && dotStarThen p rest)

/-- `re.compile(r'.*-.*\.yang$').match(s)` from lines 32-34: anchored at the
start of the string (Python `re.match`). -/
def yangNamePattern (s : List Char) : Bool :=
  dotStarThen
    (fun t =>
      match t with
      | c :: r => c == '-' && dotStarThen yangTailMatch r
      | [] => false) s

/-- `os.path.basename`: the part of the path after the last `/` (POSIX). -/
def basenameOf (s : List Char) : List Char :=
  (s.reverse.takeWhile (fun c => c != '/')).reverse

/-- The selection test applied to each member name in `extract_yang_files`
(lines 32-37): the regex must match, the name must not end in `/`
(directory entry), and the base name must contain a hyphen. -/
def selectMember (s : List Char) : Bool :=
  yangNamePattern s && !(decide (s.getLast? = some '/')) && (basenameOf s).contains '-'

/-- The selection rule as claim C2 words it: the path ends with the exact
extension `.yang`, is not a directory entry, and the base filename contains
a hyphen.  Stated from the spec's words, to be compared with `selectMember`. -/
def claimedSelect (s : List Char) : Bool :=
  ['.', 'y', 'a', 'n', 'g'].isSuffixOf s
    && !(decide (s.getLast? = some '/')) && (basenameOf s).contains '-'

/-- One archive member: its path inside the archive and its extracted
content, `none` standing for a member whose extracted file cannot be
opened or read (the failure caught at lines 74-75). -/
structure ZipEntry where
  name : String
  content : Option String
deriving DecidableEq, Repr

/-- `extract_yang_files` (lines 19-44): the members whose names pass the
selection test, in archive listing order. -/
def extract_yang_files (entries : List ZipEntry) : List ZipEntry :=
  entries.filter (fun e => selectMember e.name.data)

/-- One member's contribution to the result: the try/except of lines 53-78
means a member whose content cannot be opened contributes the empty dict. -/
def extract_keys_opt : Option String → List (String × PyVal)
  | none => []
  | some c => extract_keys_using_regex c

/-- The parsing loop of lines 104-112: fold each selected member's extracted
dict into the accumulator with `dict.update` (last write wins). -/
def parseSelected (entries : List ZipEntry) : List (String × PyVal) :=
  (extract_yang_files entries).foldl
    (fun acc e => dictUpdate acc (extract_keys_opt e.content)) []

/-- The zero-match diagnostic of lines 93-102: when no member was selected,
the code re-opens the archive and samples the first member whose name ends
in `.yang` and is not a directory entry, with `zip_ref.open(file_path)` /
`f.read(500)` under no try/except.  The sampled bytes are only logged, so
all that can affect the run is whether that read raises; `none` content
models a member whose raw data cannot be read (corrupt or encrypted
member), which makes the block raise. -/
def sampleDiagnosticFails (entries : List ZipEntry) : Bool :=
  match entries.find? (fun e =>
      ['.', 'y', 'a', 'n', 'g'].isSuffixOf e.name.data
        && !(decide (e.name.data.getLast? = some '/'))) with
  | none => false
  | some e => e.content.isNone

/-- `extract_primary_keys_from_zip` (lines 80-114): select the members; when
none qualifies, run the unguarded sample diagnostic of lines 93-102, whose
failure raises out of the function (modelled as `Except.error`); otherwise
(and also after a harmless diagnostic) fold each selected member's dict into
the accumulator — a loop over the empty selection when none qualified. -/
def extract_primary_keys_from_zip (entries : List ZipEntry) :
    Except String (List (String × PyVal)) :=
  if (extract_yang_files entries).isEmpty then
    if sampleDiagnosticFails entries then Except.error "sample member read failed"
    else Except.ok (parseSelected entries)
  else Except.ok (parseSelected entries)

/-- The merge of the per-member dicts of a list of member texts, in order. -/
def mergeAll (contents : List String) : List (String × PyVal) :=
  contents.foldl (fun acc c => dictUpdate acc (extract_keys_using_regex c)) []

/-- What a run of `main` produces: the process exit status and the mapping
written to the chosen output sink (`none` when nothing was written). -/
structure MainOutcome where
  exitCode : Nat
  output : Option (List (String × PyVal))
deriving DecidableEq, Repr

/-- `main` (lines 116-145).  The archive argument is the outcome of opening
the zip: `Except.error` models `zipfile.ZipFile` raising (missing,
unreadable or corrupt archive).  Any exception escaping
`extract_primary_keys_from_zip` — the archive open failure, or the
unguarded sample read of lines 93-102 — lands in the `except` clause of
lines 141-143, so the run returns 1 before the output code at lines
134-139 executes; otherwise the mapping is serialized to the output sink
and 0 is returned. -/
def main (archive : Except String (List ZipEntry)) : MainOutcome :=
  match archive with
  | .error _ => { exitCode := 1, output := none }
  | .ok entries =>
    match extract_primary_keys_from_zip entries with
    | .error _ => { exitCode := 1, output := none }
    | .ok pk => { exitCode := 0, output := some pk }

/-- `match ... with some / none`: first-defined option, used to phrase
last-write-wins lookups. -/
def optOr (a b : Option PyVal) : Option PyVal :=
  match a with
  | some v => some v
  | none => b

/-- The value of the last entry with key `n` in a (possibly duplicated)
entry sequence. -/
def lastVal (n : String) (l : List (String × PyVal)) : Option PyVal :=
  ((l.filter (fun p => p.1 == n)).getLast?).map Prod.snd

/-- The processed entry sequence a single member text feeds into the dict. -/
def preOf (c : String) : List (String × PyVal) :=
  (findAll c.data).map (fun m => (String.mk m.1, processKey m.2))

/-- The processed entry sequence of one member, empty for a failed member. -/
def preOpt : Option String → List (String × PyVal)
  | none => []
  | some c => preOf c

/-- The processed entry sequence of a whole run, in processing order. -/
def preAll (cs : List (Option String)) : List (String × PyVal) :=
  ((cs.filterMap id).map preOf).flatten

/-- Every pattern match contributed by the selected, readable members of an
archive, members in listing order and matches in textual order. -/
def selectedMatches (entries : List ZipEntry) : List (List Char × List Char) :=
  (((extract_yang_files entries).filterMap (fun e => e.content)).map
    (fun c => findAll c.data)).flatten

/-- A character that `json.dumps` writes into a string literal unescaped and
that `json.loads` reads back verbatim: printable ASCII other than the quote
and the backslash.  Every entity name the extractor produces (`\w+`) is of
this form. -/
def jsonPlainChar (c : Char) : Bool :=
  0x20 ≤ c.toNat && c.toNat < 0x7f && c != '"' && c != '\\'

/-- A string of plain characters (serialized without escapes). -/
def jsonPlainString (s : String) : Bool :=
  s.data.all jsonPlainChar

/-- A dict value whose strings are all plain. -/
def jsonPlainVal : PyVal → Bool
  | .str s => jsonPlainString s
  | .list l => l.all jsonPlainString

/-- A result mapping whose keys and values are all plain strings. -/
def jsonPlainMapping (d : List (String × PyVal)) : Bool :=
  d.all (fun p => jsonPlainString p.1 && jsonPlainVal p.2)

/-- Modelled from the spec: a JSON string literal for a plain string, as the
stdlib serializer (`json.dump(..., indent=2)`, line 136/139, not part of
src) writes it. -/
def quoteStr (s : String) : List Char :=
  '"' :: s.data ++ ['"']

/-- Modelled from the spec: the items of a non-empty JSON array after the
first one, each on its own line indented four spaces, then the closing
bracket indented two. -/
def emitItemsRest : List String → List Char
  | [] => '\n' :: ' ' :: ' ' :: ']' :: []
  | s :: rest => ',' :: '\n' :: ' ' :: ' ' :: ' ' :: ' ' :: quoteStr s ++ emitItemsRest rest

/-- Modelled from the spec: one mapping value as `json.dump(..., indent=2)`
renders it — a string literal, or a (possibly empty) array of strings. -/
def emitVal : PyVal → List Char
  | .str s => quoteStr s
  | .list [] => ['[', ']']
  | .list (x :: xs) => '[' :: '\n' :: ' ' :: ' ' :: ' ' :: ' ' :: quoteStr x ++ emitItemsRest xs

/-- Modelled from the spec: the mapping entries after the first one, each as
`  "key": value` on its own line, then the closing brace. -/
def emitEntriesRest : List (String × PyVal) → List Char
  | [] => '\n' :: '}' :: []
  | p :: rest =>
    ',' :: '\n' :: ' ' :: ' ' :: quoteStr p.1 ++ ':' :: ' ' :: emitVal p.2 ++ emitEntriesRest rest

/-- Modelled from the spec: `json.dumps(mapping, indent=2)` — the structured
output document of the run (stdlib code, not part of src), with stable
2-space indentation. -/
def dumps : List (String × PyVal) → List Char
  | [] => ['{', '}']
  | p :: rest =>
    '{' :: '\n' :: ' ' :: ' ' :: quoteStr p.1 ++ ':' :: ' ' :: emitVal p.2 ++ emitEntriesRest rest

/-- A lexical token of the output document. -/
inductive JTok where
  | lbrace
  | rbrace
  | lbrack
  | rbrack
  | colon
  | comma
  | str (s : List Char)
deriving DecidableEq, Repr

/-- The one-character punctuation tokens of the output document. -/
def structTok (c : Char) : Option JTok :=
  if c == '{' then some .lbrace
  else if c == '}' then some .rbrace
  else if c == '[' then some .lbrack
  else if c == ']' then some .rbrack
  else if c == ':' then some .colon
  else if c == ',' then some .comma
  else none

/-- Fuel-indexed lexer worker: skip whitespace, read one-character
punctuation tokens, and read `"`-delimited string literals verbatim
(plain strings only — escape sequences are outside the model).  In the
string case the dropped head character, when present, is necessarily the
closing quote. -/
def tokenizeAux : Nat → List Char → Option (List JTok)
  | 0, [] => some []
  | 0, _ :: _ => none
  | _ + 1, [] => some []
  | n + 1, c :: r =>
    if c == '"' then
      match r.dropWhile (fun x => x != '"') with
      | [] => none
      | _ :: r2 =>
        (tokenizeAux n r2).map (fun ts => JTok.str (r.takeWhile (fun x => x != '"')) :: ts)
    else if isPySpace c then tokenizeAux n r
    else
      match structTok c with
      | some t => (tokenizeAux n r).map (fun ts => t :: ts)
      | none => none

/-- Modelled from the spec: the lexer of the output document.  The fuel
`cs.length` is sufficient because each step consumes at least one
character. -/
def tokenize (cs : List Char) : Option (List JTok) :=
  tokenizeAux cs.length cs

/-- Parser state: position inside the object grammar
`{ ( "k": v ( , "k": v )* )? }` with `v ::= "s" | [ ( "s" ( , "s" )* )? ]`. -/
inductive PState where
  | expectFirst
  | expectEntry
  | expectColon (k : List Char)
  | expectVal (k : List Char)
  | inListFirst (k : List Char)
  | inListComma (k : List Char) (items : List String)
  | inListItem (k : List Char) (items : List String)
  | afterEntry
deriving DecidableEq, Repr

/-- Modelled from the spec: the object parser, one token per step, keeping
entries in document order.  Accepts exactly the token sequences of the
grammar above, with no input left over. -/
def parseSM (acc : List (String × PyVal)) : PState → List JTok → Option (List (String × PyVal))
  | _, [] => none
  | .expectFirst, .rbrace :: ts => if ts.isEmpty then some acc else none
  | .expectFirst, .str k :: ts => parseSM acc (.expectColon k) ts
  | .expectEntry, .str k :: ts => parseSM acc (.expectColon k) ts
  | .expectColon k, .colon :: ts => parseSM acc (.expectVal k) ts
  | .expectVal k, .str s :: ts =>
    parseSM (acc ++ [(String.mk k, PyVal.str (String.mk s))]) .afterEntry ts
  | .expectVal k, .lbrack :: ts => parseSM acc (.inListFirst k) ts
  | .inListFirst k, .rbrack :: ts =>
    parseSM (acc ++ [(String.mk k, PyVal.list [])]) .afterEntry ts
  | .inListFirst k, .str s :: ts => parseSM acc (.inListComma k [String.mk s]) ts
  | .inListComma k items, .comma :: ts => parseSM acc (.inListItem k items) ts
  | .inListComma k items, .rbrack :: ts =>
    parseSM (acc ++ [(String.mk k, PyVal.list items)]) .afterEntry ts
  | .inListItem k items, .str s :: ts =>
    parseSM acc (.inListComma k (items ++ [String.mk s])) ts
  | .afterEntry, .comma :: ts => parseSM acc .expectEntry ts
  | .afterEntry, .rbrace :: ts => if ts.isEmpty then some acc else none
  | _, _ :: _ => none

/-- Modelled from the spec: `json.loads` on the output document (stdlib code,
not part of src), specialized to the mapping grammar the program emits. -/
def loads (cs : List Char) : Option (List (String × PyVal)) :=
  match tokenize cs with
  | some (.lbrace :: ts) => parseSM [] .expectFirst ts
  | _ => none

/-- The token sequence of one serialized value. -/
def valToks : PyVal → List JTok
  | .str s => [.str s.data]
  | .list [] => [.lbrack, .rbrack]
  | .list (x :: xs) => .lbrack :: .str x.data :: itemsRestToks xs
where
  /-- The token sequence of the items of an array after the first one. -/
  itemsRestToks : List String → List JTok
    | [] => [.rbrack]
    | s :: rest => .comma :: .str s.data :: itemsRestToks rest

/-- The token sequence of the serialized entries after the first one. -/
def entriesRestToks : List (String × PyVal) → List JTok
  | [] => [.rbrace]
  | p :: rest => .comma :: .str p.1.data :: .colon :: valToks p.2 ++ entriesRestToks rest

/-- The token sequence of a whole serialized mapping. -/
def dumpToks : List (String × PyVal) → List JTok
  | [] => [.lbrace, .rbrace]
  | p :: rest => .lbrace :: .str p.1.data :: .colon :: valToks p.2 ++ entriesRestToks rest

/-! ## Serialization round-trip (claim C8) -/

theorem tokenizeAux_nil : ∀ n, tokenizeAux n [] = some [] := by
  intro n
  cases n <;> rfl

theorem tokenizeAux_adequate : ∀ (n : Nat) (cs : List Char),
    cs.length ≤ n → tokenizeAux n cs = tokenize cs := by
  intro n
  induction n using Nat.strong_induction_on with
  | _ n ih =>
    intro cs hcs
    cases cs with
    | nil => rw [tokenizeAux_nil, tokenize, tokenizeAux_nil]
    | cons c r =>
      obtain ⟨m, rfl⟩ : ∃ m, n = m + 1 := by
        cases n with
        | zero => simp at hcs
        | succ m => exact ⟨m, rfl⟩
      simp only [List.length_cons] at hcs
      rw [tokenize]
      simp only [List.length_cons]
      by_cases hq : (c == '"') = true
      · simp only [tokenizeAux, hq, if_true]
        cases hd : r.dropWhile (fun x => x != '"') with
        | nil => rfl
        | cons q r2 =>
          have hr2 : r2.length + 1 ≤ r.length := by
            have h1 : (r.dropWhile (fun x => x != '"')).length ≤ r.length :=
              (List.dropWhile_sublist _).length_le
            rw [hd] at h1
            simpa using h1
          show (tokenizeAux m r2).map (fun ts => JTok.str (r.takeWhile (fun x => x != '"')) :: ts)
              = (tokenizeAux r.length r2).map
                  (fun ts => JTok.str (r.takeWhile (fun x => x != '"')) :: ts)
          rw [ih m (by omega) r2 (by omega), ih r.length (by omega) r2 (by omega)]
      · have hq' : (c == '"') = false := by simpa using hq
        by_cases hs : isPySpace c = true
        · simp only [tokenizeAux, hq', Bool.false_eq_true, if_false, hs, if_true]
          rw [ih m (by omega) r (by omega), ih r.length (by omega) r (by omega)]
        · have hs' : isPySpace c = false := by simpa using hs
          simp only [tokenizeAux, hq', Bool.false_eq_true, if_false, hs', if_false]
          cases hst : structTok c with
          | none => rfl
          | some t =>
            show (tokenizeAux m r).map (fun ts => t :: ts)
                = (tokenizeAux r.length r).map (fun ts => t :: ts)
            rw [ih m (by omega) r (by omega), ih r.length (by omega) r (by omega)]

theorem tokenize_blank (r : List Char) : tokenize (' ' :: r) = tokenize r := rfl

theorem tokenize_newline (r : List Char) : tokenize ('\n' :: r) = tokenize r := rfl

theorem tokenize_lbrace (r : List Char) :
    tokenize ('{' :: r) = (tokenize r).map (fun ts => JTok.lbrace :: ts) := rfl

theorem tokenize_rbrace (r : List Char) :
    tokenize ('}' :: r) = (tokenize r).map (fun ts => JTok.rbrace :: ts) := rfl

theorem tokenize_lbrack (r : List Char) :
    tokenize ('[' :: r) = (tokenize r).map (fun ts => JTok.lbrack :: ts) := rfl

theorem tokenize_rbrack (r : List Char) :
    tokenize (']' :: r) = (tokenize r).map (fun ts => JTok.rbrack :: ts) := rfl

theorem tokenize_colon (r : List Char) :
    tokenize (':' :: r) = (tokenize r).map (fun ts => JTok.colon :: ts) := rfl

theorem tokenize_comma (r : List Char) :
    tokenize (',' :: r) = (tokenize r).map (fun ts => JTok.comma :: ts) := rfl

/-! ## Helper lemmas on `takeWhile` / `dropWhile` frontiers -/

theorem takeWhile_frontier (p : Char → Bool) :
    ∀ (a : List Char) (b : Char) (t : List Char),
      (∀ c ∈ a, p c = true) → p b = false → (a ++ b :: t).takeWhile p = a := by
  intro a
  induction a with
  | nil => intro b t _ hb; simp [List.takeWhile_cons, hb]
  | cons x a ih =>
    intro b t ha hb
    have hx : p x = true := ha x (by simp)
    simp only [List.cons_append, List.takeWhile_cons, hx, if_true]
    rw [ih b t (fun c hc => ha c (by simp [hc])) hb]

theorem dropWhile_frontier (p : Char → Bool) :
    ∀ (a : List Char) (b : Char) (t : List Char),
      (∀ c ∈ a, p c = true) → p b = false → (a ++ b :: t).dropWhile p = b :: t := by
  intro a
  induction a with
  | nil => intro b t _ hb; simp [List.dropWhile_cons, hb]
  | cons x a ih =>
    intro b t ha hb
    have hx : p x = true := ha x (by simp)
    simp only [List.cons_append, List.dropWhile_cons, hx, if_true]
    exact ih b t (fun c hc => ha c (by simp [hc])) hb

/-! ## Character class facts -/

theorem word_char_not_space {c : Char} (h : isWordChar c = true) : isPySpace c = false := by
  cases hs : isPySpace c with
  | false => rfl
  | true =>
    exfalso
    simp only [isPySpace, Bool.or_eq_true, beq_iff_eq] at hs
    rcases hs with (((((h1 | h1) | h1) | h1) | h1) | h1) <;> subst h1 <;>
      exact absurd h (by decide)

theorem space_char_not_word {c : Char} (h : isPySpace c = true) : isWordChar c = false := by
  cases hw : isWordChar c with
  | false => rfl
  | true => rw [word_char_not_space hw] at h; exact absurd h (by simp)

/-! ## Length bounds for the regex engine (fuel adequacy) -/

theorem matchLit_length : ∀ (l cs cs' : List Char),
    matchLit l cs = some cs' → cs'.length + l.length = cs.length := by
  intro l
  induction l with
  | nil => intro cs cs' h; simp only [matchLit, Option.some.injEq] at h; subst h; simp
  | cons x l ih =>
    intro cs cs' h
    cases cs with
    | nil => exact absurd h (by simp [matchLit])
    | cons c cs =>
      simp only [matchLit] at h
      split at h
      · have := ih cs cs' h
        simp only [List.length_cons]
        omega
      · exact absurd h (by simp)

theorem matchLit_append (l cs : List Char) : matchLit l (l ++ cs) = some cs := by
  induction l with
  | nil => rfl
  | cons x l ih => simp [matchLit, ih]

theorem tryKeyTail_length : ∀ {cs kv rest : List Char},
    tryKeyTail cs = some (kv, rest) → rest.length < cs.length := by
  intro cs kv rest h
  unfold tryKeyTail at h
  split at h
  · exact absurd h (by simp)
  · next cs1 hm =>
    have h3 : cs1.length + 3 = cs.length := matchLit_length _ _ _ hm
    split at h
    · exact absurd h (by simp)
    · split at h
      · next cs3 hd =>
        have hd_le : cs3.length + 1 ≤ cs1.length := by
          have : (cs1.dropWhile isPySpace).length ≤ cs1.length := (List.dropWhile_sublist isPySpace).length_le
          rw [hd] at this
          simpa using this
        split at h
        · exact absurd h (by simp)
        · split at h
          · next rest' hq =>
            have hq_le : rest'.length + 1 ≤ cs3.length := by
              have : (cs3.dropWhile (fun c => c != '"')).length ≤ cs3.length := (List.dropWhile_sublist (fun c => c != '"')).length_le
              rw [hq] at this
              simpa using this
            injection h with h
            injection h with hkv hrest
            subst hrest
            omega
          · exact absurd h (by simp)
      · exact absurd h (by simp)

theorem lazyKeyScan_length : ∀ {cs kv rest : List Char},
    lazyKeyScan cs = some (kv, rest) → rest.length < cs.length := by
  intro cs
  induction cs with
  | nil =>
    intro kv rest h
    exact absurd h (by simp [lazyKeyScan, tryKeyTail, matchLit])
  | cons c cs ih =>
    intro kv rest h
    unfold lazyKeyScan at h
    split at h
    · next r heq =>
      injection h with h2
      subst h2
      exact tryKeyTail_length heq
    · split at h
      · exact absurd h (by simp)
      · have := ih h
        simp only [List.length_cons]
        omega

theorem matchAt_length : ∀ {cs : List Char} {r : List Char × List Char} {after : List Char},
    matchAt cs = some (r, after) → after.length < cs.length := by
  intro cs r after h
  unfold matchAt at h
  split at h
  · exact absurd h (by simp)
  · next cs1 hm =>
    have h4 : cs1.length + 4 = cs.length := matchLit_length _ _ _ hm
    split at h
    · exact absurd h (by simp)
    · split at h
      · exact absurd h (by simp)
      · split at h
        · next cs5 heq =>
          have h5 : cs5.length < cs1.length := by
            have h1 : (((cs1.dropWhile isPySpace).dropWhile isWordChar).dropWhile isPySpace).length ≤ ((cs1.dropWhile isPySpace).dropWhile isWordChar).length := (List.dropWhile_sublist isPySpace).length_le
            have h2 : ((cs1.dropWhile isPySpace).dropWhile isWordChar).length ≤ (cs1.dropWhile isPySpace).length := (List.dropWhile_sublist isWordChar).length_le
            have h3 : (cs1.dropWhile isPySpace).length ≤ cs1.length := (List.dropWhile_sublist isPySpace).length_le
            rw [heq] at h1
            simp only [List.length_cons] at h1
            omega
          split at h
          · next kv2 rest2 hl =>
            have hlen := lazyKeyScan_length hl
            simp only [Option.some.injEq, Prod.mk.injEq] at h
            obtain ⟨-, rfl⟩ := h
            omega
          · exact absurd h (by simp)
        · exact absurd h (by simp)

theorem findAllAux_nil : ∀ n, findAllAux n [] = [] := by
  intro n
  cases n with
  | zero => rfl
  | succ n => simp [findAllAux, matchAt, matchLit]

theorem findAllAux_succ_some {cs after : List Char} {r : List Char × List Char}
    (n : Nat) (h : matchAt cs = some (r, after)) :
    findAllAux (n + 1) cs = r :: findAllAux n after := by
  simp [findAllAux, h]

theorem findAllAux_succ_none {c : Char} {rest : List Char}
    (n : Nat) (h : matchAt (c :: rest) = none) :
    findAllAux (n + 1) (c :: rest) = findAllAux n rest := by
  simp [findAllAux, h]

theorem findAllAux_adequate : ∀ (n : Nat) (cs : List Char),
    cs.length ≤ n → findAllAux n cs = findAll cs := by
  intro n
  induction n using Nat.strong_induction_on with
  | _ n ih =>
    intro cs hcs
    cases cs with
    | nil => rw [findAllAux_nil, findAll, findAllAux_nil]
    | cons c rest =>
      have hn : ∃ m, n = m + 1 := by
        cases n with
        | zero => simp at hcs
        | succ m => exact ⟨m, rfl⟩
      obtain ⟨m, rfl⟩ := hn
      simp only [List.length_cons] at hcs
      rw [findAll, List.length_cons]
      cases hma : matchAt (c :: rest) with
      | some p =>
        obtain ⟨r, after⟩ := p
        have hlt := matchAt_length hma
        simp only [List.length_cons] at hlt
        rw [findAllAux_succ_some m hma, findAllAux_succ_some rest.length hma,
            ih m (by omega) after (by omega),
            ih rest.length (by omega) after (by omega)]
      | none =>
        rw [findAllAux_succ_none m hma, findAllAux_succ_none rest.length hma,
            ih m (by omega) rest (by omega),
            ih rest.length (by omega) rest (by omega)]

theorem findAll_cons_of_matchAt {cs : List Char} {r : List Char × List Char}
    {after : List Char} (h : matchAt cs = some (r, after)) :
    findAll cs = r :: findAll after := by
  cases cs with
  | nil => exact absurd h (by simp [matchAt, matchLit])
  | cons c rest =>
    have hlt := matchAt_length h
    simp only [List.length_cons] at hlt
    rw [findAll, List.length_cons, findAllAux_succ_some rest.length h,
        findAllAux_adequate rest.length after (by omega)]

/-! ## Claim C1: key clause parsing -/

/-- C1: for every matched list declaration, the captured quoted key string is
trimmed and split on whitespace (`keyTokens`); exactly one token gives a
scalar string value, more than one gives the ordered token sequence; in
particular `list Foo { key "bar"; ... }` yields `{"Foo": "bar"}` and
`list Foo { key "bar baz"; ... }` yields `{"Foo": ["bar", "baz"]}`. -/
theorem C1_key_clause_tokens :
    (∀ kv k, keyTokens kv = [k] → processKey kv = PyVal.str k) ∧
    (∀ kv k1 k2 ks, keyTokens kv = k1 :: k2 :: ks →
      processKey kv = PyVal.list (k1 :: k2 :: ks)) ∧
    extract_keys_using_regex "list Foo \x7b key \"bar\"; ... \x7d" = [("Foo", PyVal.str "bar")] ∧
    extract_keys_using_regex "list Foo \x7b key \"bar baz\"; ... \x7d"
      = [("Foo", PyVal.list ["bar", "baz"])] := by
  refine ⟨?_, ?_, by decide, by decide⟩
  · intro kv k h
    simp [processKey, h]
  · intro kv k1 k2 ks h
    simp [processKey, h]

/-- Witness for C1 at the concrete key string `bar`. -/
theorem C1_witness :
    keyTokens ('b' :: 'a' :: 'r' :: []) = ["bar"] ∧
    processKey ('b' :: 'a' :: 'r' :: []) = PyVal.str "bar" :=
  ⟨by decide, C1_key_clause_tokens.1 ('b' :: 'a' :: 'r' :: []) "bar" (by decide)⟩

/-! ## Claim C9: `leaf-list` steals the key of the outer list -/

/-- C9: on `list L { leaf-list a { type string; } key "id"; }` the engine
matches `list` inside `leaf-list` (no word boundary in the pattern), so the
key `id` is attributed to the leaf-list name `a` and the actual list `L`
gets no entry. -/
theorem C9_leaflist_misattribution :
    extract_keys_using_regex "list L \x7b leaf-list a \x7b type string; \x7d key \"id\"; \x7d"
      = [("a", PyVal.str "id")] := by decide

/-! ## Claim C10: whitespace-only quoted key -/

/-- C10: on `list Foo { key " "; }` the quoted key string is non-empty but
whitespace-only; stripping and splitting produces zero tokens, so the stored
value is the empty list. -/
theorem C10_whitespace_key :
    extract_keys_using_regex "list Foo \x7b key \" \"; \x7d" = [("Foo", PyVal.list [])] := by decide

/-! ## Claim C4: what is tolerated between the entity name and the brace -/

/-- Counterexample to C4 as stated: the claim says arbitrary non-brace
characters between the identifier and the opening brace are tolerated, but
the pattern only allows whitespace (`\s*`) there: on
`list Foo x { key "a"; }` the extractor records nothing at all. -/
theorem C4_counterexample :
    extract_keys_using_regex "list Foo x \x7b key \"a\"; \x7d" = [] ∧
    dictLookup "Foo" (extract_keys_using_regex "list Foo x \x7b key \"a\"; \x7d") = none := by decide

/-! ## Claim C6: fatal archive failure -/

/-- C6: when the archive cannot be opened, the exception propagates to
`main`'s handler: the run exits non-zero (status 1) and no mapping is
written to any output sink. -/
theorem C6_fatal_archive_error :
    main (Except.error "BadZipFile") = { exitCode := 1, output := none } := rfl

/-! ## Claim C7: zero qualifying members -/

/-- Counterexample to C7 as stated: the zero-match diagnostic of lines
93-102 reads the first `.yang` member with no try/except, so an archive
whose only member is an unreadable `v1.yang` (zero qualifying members) makes
the run exit 1 with no output instead of the claimed unconditional exit 0. -/
theorem C7_counterexample :
    extract_yang_files [⟨"v1.yang", none⟩] = [] ∧
    main (Except.ok [⟨"v1.yang", none⟩]) = { exitCode := 1, output := none } := by decide

/-- C7 amended: a readable archive in which no member passes the selection
test is not an error provided the best-effort sample read of lines 93-102
does not itself raise: the loop body never runs, the final mapping is empty,
the mapping is still written, and the exit status is 0. -/
theorem C7_zero_members (entries : List ZipEntry) (h : extract_yang_files entries = [])
    (h2 : sampleDiagnosticFails entries = false) :
    main (Except.ok entries) = { exitCode := 0, output := some [] } := by
  have hps : parseSelected entries = [] := by
    rw [parseSelected, h]
    rfl
  have hok : extract_primary_keys_from_zip entries = Except.ok [] := by
    rw [extract_primary_keys_from_zip, hps]
    simp [h, h2]
  simp [main, hok]

/-- Witness for the amended C7: an archive whose only member is a readable
`v1.yang` (no hyphen, so not selected; sampled without failure). -/
theorem C7_witness :
    extract_yang_files [⟨"v1.yang", some "list A \x7b key \"x\"; \x7d"⟩] = [] ∧
    sampleDiagnosticFails [⟨"v1.yang", some "list A \x7b key \"x\"; \x7d"⟩] = false ∧
    main (Except.ok [⟨"v1.yang", some "list A \x7b key \"x\"; \x7d"⟩])
      = { exitCode := 0, output := some [] } :=
  ⟨by decide, by decide, C7_zero_members _ (by decide) (by decide)⟩

/-! ## Claim C2: the member selection rule -/

/-- Counterexample to C2 as stated: the claim's "ends with `.yang`" test and
the code's regex disagree on names with a trailing newline — Python's `$`
also matches just before a newline that ends the string, so the member name
`a-b.yang\n` is selected although it does not end in `.yang`. -/
theorem C2_counterexample :
    selectMember ("a-b.yang\n".data) = true ∧ claimedSelect ("a-b.yang\n".data) = false := by
  decide

/-- Soundness and completeness of the `.*` fragment: it succeeds exactly on
inputs that split into a newline-free prefix and a tail accepted by the
continuation. -/
theorem dotStarThen_iff (p : List Char → Bool) :
    ∀ t : List Char, dotStarThen p t = true ↔
      ∃ a b, t = a ++ b ∧ (∀ c ∈ a, c ≠ '\n') ∧ p b = true := by
  intro t
  induction t with
  | nil =>
    simp only [dotStarThen]
    constructor
    · intro h
      exact ⟨[], [], rfl, by simp, h⟩
    · rintro ⟨a, b, hab, _, hb⟩
      obtain ⟨rfl, rfl⟩ := List.append_eq_nil.mp hab.symm
      exact hb
  | cons c rest ih =>
    simp only [dotStarThen, Bool.or_eq_true, Bool.and_eq_true, bne_iff_ne, ne_eq]
    constructor
    · rintro (h | ⟨hc, h⟩)
      · exact ⟨[], c :: rest, rfl, by simp, h⟩
      · obtain ⟨a, b, hab, ha, hb⟩ := ih.mp h
        refine ⟨c :: a, b, by rw [List.cons_append, hab], ?_, hb⟩
        intro x hx
        rcases List.mem_cons.mp hx with rfl | hx
        · exact hc
        · exact ha x hx
    · rintro ⟨a, b, hab, ha, hb⟩
      cases a with
      | nil =>
        left
        have hb' : b = c :: rest := by simpa using hab.symm
        exact hb' ▸ hb
      | cons a0 a' =>
        right
        simp only [List.cons_append] at hab
        injection hab with h1 h2
        subst h1
        exact ⟨ha c (by simp), ih.mpr ⟨a', b, h2, fun x hx => ha x (by simp [hx]), hb⟩⟩

/-- For newline-free inputs the whole pattern `.*-.*\.yang$` succeeds exactly
on strings of the shape `a ++ "-" ++ b ++ ".yang"`. -/
theorem yangNamePattern_iff_of_no_newline {s : List Char} (hnl : '\n' ∉ s) :
    yangNamePattern s = true ↔
      ∃ a b, s = a ++ '-' :: (b ++ ['.', 'y', 'a', 'n', 'g']) := by
  rw [yangNamePattern]
  constructor
  · intro h
    obtain ⟨a, t, rfl, _, hin⟩ := (dotStarThen_iff _ _).mp h
    cases t with
    | nil => exact absurd hin (by simp)
    | cons c r =>
      simp only [Bool.and_eq_true, beq_iff_eq] at hin
      obtain ⟨rfl, hr⟩ := hin
      obtain ⟨b, d, rfl, _, hd⟩ := (dotStarThen_iff _ _).mp hr
      have hd' : d = ['.', 'y', 'a', 'n', 'g'] ∨ d = ['.', 'y', 'a', 'n', 'g', '\n'] := by
        simpa [yangTailMatch] using hd
      rcases hd' with rfl | rfl
      · exact ⟨a, b, rfl⟩
      · exact absurd (by simp : '\n' ∈ a ++ '-' :: (b ++ ['.', 'y', 'a', 'n', 'g', '\n'])) hnl
  · rintro ⟨a, b, rfl⟩
    have ha : ∀ c ∈ a, c ≠ '\n' := fun c hc he => hnl (by subst he; simp [hc])
    have hb : ∀ c ∈ b, c ≠ '\n' := fun c hc he => hnl (by subst he; simp [hc])
    refine (dotStarThen_iff _ _).mpr
      ⟨a, '-' :: (b ++ ['.', 'y', 'a', 'n', 'g']), rfl, ha, ?_⟩
    show ((('-' : Char) == '-') && dotStarThen yangTailMatch (b ++ ['.', 'y', 'a', 'n', 'g'])) = true
    simp only [beq_self_eq_true, Bool.true_and]
    exact (dotStarThen_iff _ _).mpr
      ⟨b, ['.', 'y', 'a', 'n', 'g'], rfl, hb, by simp [yangTailMatch]⟩

theorem mem_of_mem_basenameOf {c : Char} {s : List Char} (h : c ∈ basenameOf s) : c ∈ s := by
  rw [basenameOf, List.mem_reverse] at h
  exact List.mem_reverse.mp ((List.takeWhile_sublist (fun c => c != '/')).mem h)

/-! ## Claim C2 (amended): the selection rule on newline-free names -/

/-- C2 amended: restricted to member paths without newline characters, the
code's selection test agrees exactly with the claimed rule (ends in `.yang`,
not a directory entry, hyphen somewhere in the base filename). -/
theorem C2_amended_selector (s : List Char) (hnl : '\n' ∉ s) :
    selectMember s = claimedSelect s := by
  rw [selectMember, claimedSelect]
  cases hB : (basenameOf s).contains '-' with
  | false => simp [hB]
  | true =>
    have key : yangNamePattern s = (['.', 'y', 'a', 'n', 'g'].isSuffixOf s) := by
      rw [Bool.eq_iff_iff, yangNamePattern_iff_of_no_newline hnl, List.isSuffixOf_iff_suffix]
      constructor
      · rintro ⟨a, b, rfl⟩
        exact ⟨a ++ '-' :: b, by simp⟩
      · rintro ⟨t, rfl⟩
        have hdash : '-' ∈ t := by
          have h2 := mem_of_mem_basenameOf (List.elem_iff.mp hB)
          rcases List.mem_append.mp h2 with h | h
          · exact h
          · exact absurd h (by decide)
        obtain ⟨u, w, rfl⟩ := List.append_of_mem hdash
        exact ⟨u, w, by simp⟩
    rw [key]

/-- Witness for the amended C2 at the name `x/a-b.yang`. -/
theorem C2_witness :
    '\n' ∉ ("x/a-b.yang".data) ∧
    selectMember ("x/a-b.yang".data) = claimedSelect ("x/a-b.yang".data) :=
  ⟨by decide, C2_amended_selector ("x/a-b.yang".data) (by decide)⟩

/-! ## Building a successful match (for the amended C4) -/

theorem tryKeyTail_build (w3 kv rest : List Char) (hw3 : w3 ≠ [])
    (hw3s : ∀ c ∈ w3, isPySpace c = true) (hkv : kv ≠ [])
    (hkvq : ∀ c ∈ kv, (c != '"') = true) :
    tryKeyTail ('k' :: 'e' :: 'y' :: (w3 ++ '"' :: (kv ++ '"' :: rest))) = some (kv, rest) := by
  have hml : matchLit ['k', 'e', 'y'] ('k' :: 'e' :: 'y' :: (w3 ++ '"' :: (kv ++ '"' :: rest)))
      = some (w3 ++ '"' :: (kv ++ '"' :: rest)) := matchLit_append ['k', 'e', 'y'] _
  have ht1 : (w3 ++ '"' :: (kv ++ '"' :: rest)).takeWhile isPySpace = w3 :=
    takeWhile_frontier isPySpace w3 '"' (kv ++ '"' :: rest) hw3s (by decide)
  have hd1 : (w3 ++ '"' :: (kv ++ '"' :: rest)).dropWhile isPySpace = '"' :: (kv ++ '"' :: rest) :=
    dropWhile_frontier isPySpace w3 '"' (kv ++ '"' :: rest) hw3s (by decide)
  have ht2 : (kv ++ '"' :: rest).takeWhile (fun c => c != '"') = kv :=
    takeWhile_frontier (fun c => c != '"') kv '"' rest hkvq (by decide)
  have hd2 : (kv ++ '"' :: rest).dropWhile (fun c => c != '"') = '"' :: rest :=
    dropWhile_frontier (fun c => c != '"') kv '"' rest hkvq (by decide)
  have hw3e : w3.isEmpty = false := by
    cases w3 with
    | nil => exact absurd rfl hw3
    | cons a b => rfl
  have hkve : kv.isEmpty = false := by
    cases kv with
    | nil => exact absurd rfl hkv
    | cons a b => rfl
  simp only [tryKeyTail, hml, ht1, hd1, ht2, hd2, hw3e, hkve, Bool.false_eq_true,
    if_false]

theorem lazyKeyScan_of_tryKeyTail {t : List Char} {r : List Char × List Char}
    (h : tryKeyTail t = some r) : lazyKeyScan t = some r := by
  cases t with
  | nil => exact h
  | cons c rest => simp only [lazyKeyScan, h]

theorem lazyKeyScan_through : ∀ (mid tail : List Char),
    (∀ c ∈ mid, (c == '{') = false) →
    (∀ i, i < mid.length → tryKeyTail (mid.drop i ++ tail) = none) →
    lazyKeyScan (mid ++ tail) = lazyKeyScan tail := by
  intro mid
  induction mid with
  | nil => intro tail _ _; rfl
  | cons c mid ih =>
    intro tail hmid hfail
    have h0 : tryKeyTail (c :: (mid ++ tail)) = none := by
      have := hfail 0 (by simp)
      simpa using this
    have hc : (c == '{') = false := hmid c (by simp)
    rw [List.cons_append]
    simp only [lazyKeyScan, h0, hc, Bool.false_eq_true, if_false]
    exact ih tail (fun x hx => hmid x (by simp [hx]))
      (fun i hi => by simpa using hfail (i + 1) (by simp only [List.length_cons]; omega))

theorem dropWhile_space_then_brace (w2 R : List Char)
    (hw2s : ∀ c ∈ w2, isPySpace c = true) :
    (w2 ++ '{' :: R).dropWhile isPySpace = '{' :: R :=
  dropWhile_frontier isPySpace w2 '{' R hw2s (by decide)

theorem takeWhile_word_name (name w2 R : List Char)
    (hnamew : ∀ c ∈ name, isWordChar c = true) (hw2s : ∀ c ∈ w2, isPySpace c = true) :
    (name ++ (w2 ++ '{' :: R)).takeWhile isWordChar = name ∧
    (name ++ (w2 ++ '{' :: R)).dropWhile isWordChar = w2 ++ '{' :: R := by
  cases w2 with
  | nil =>
    simp only [List.nil_append]
    exact ⟨takeWhile_frontier isWordChar name '{' R hnamew (by decide),
      dropWhile_frontier isWordChar name '{' R hnamew (by decide)⟩
  | cons s0 w2' =>
    have hs0 : isWordChar s0 = false := space_char_not_word (hw2s s0 (by simp))
    constructor
    · have := takeWhile_frontier isWordChar name s0 (w2' ++ '{' :: R) hnamew hs0
      simpa using this
    · have := dropWhile_frontier isWordChar name s0 (w2' ++ '{' :: R) hnamew hs0
      simpa using this

theorem matchAt_build (w1 name w2 mid w3 kv rest : List Char)
    (hw1 : w1 ≠ []) (hw1s : ∀ c ∈ w1, isPySpace c = true)
    (hname : name ≠ []) (hnamew : ∀ c ∈ name, isWordChar c = true)
    (hw2s : ∀ c ∈ w2, isPySpace c = true)
    (hmid : ∀ c ∈ mid, (c == '{') = false)
    (hfail : ∀ i, i < mid.length →
      tryKeyTail (mid.drop i ++ ('k' :: 'e' :: 'y' :: (w3 ++ '"' :: (kv ++ '"' :: rest)))) = none)
    (hw3 : w3 ≠ []) (hw3s : ∀ c ∈ w3, isPySpace c = true)
    (hkv : kv ≠ []) (hkvq : ∀ c ∈ kv, (c != '"') = true) :
    matchAt ('l' :: 'i' :: 's' :: 't' ::
        (w1 ++ (name ++ (w2 ++ '{' ::
          (mid ++ ('k' :: 'e' :: 'y' :: (w3 ++ '"' :: (kv ++ '"' :: rest))))))))
      = some ((name, kv), rest) := by
  obtain ⟨n0, name', rfl⟩ := List.exists_cons_of_ne_nil hname
  have hml : matchLit ['l', 'i', 's', 't'] ('l' :: 'i' :: 's' :: 't' ::
      (w1 ++ ((n0 :: name') ++ (w2 ++ '{' ::
        (mid ++ ('k' :: 'e' :: 'y' :: (w3 ++ '"' :: (kv ++ '"' :: rest))))))))
      = some (w1 ++ ((n0 :: name') ++ (w2 ++ '{' ::
        (mid ++ ('k' :: 'e' :: 'y' :: (w3 ++ '"' :: (kv ++ '"' :: rest))))))) :=
    matchLit_append ['l', 'i', 's', 't'] _
  have hn0w : isWordChar n0 = true := hnamew n0 (by simp)
  have hfront1 : (w1 ++ ((n0 :: name') ++ (w2 ++ '{' ::
      (mid ++ ('k' :: 'e' :: 'y' :: (w3 ++ '"' :: (kv ++ '"' :: rest))))))).takeWhile isPySpace
      = w1 := by
    have := takeWhile_frontier isPySpace w1 n0
      (name' ++ (w2 ++ '{' :: (mid ++ ('k' :: 'e' :: 'y' :: (w3 ++ '"' :: (kv ++ '"' :: rest))))))
      hw1s (word_char_not_space hn0w)
    simpa using this
  have hdrop1 : (w1 ++ ((n0 :: name') ++ (w2 ++ '{' ::
      (mid ++ ('k' :: 'e' :: 'y' :: (w3 ++ '"' :: (kv ++ '"' :: rest))))))).dropWhile isPySpace
      = (n0 :: name') ++ (w2 ++ '{' ::
        (mid ++ ('k' :: 'e' :: 'y' :: (w3 ++ '"' :: (kv ++ '"' :: rest))))) := by
    have := dropWhile_frontier isPySpace w1 n0
      (name' ++ (w2 ++ '{' :: (mid ++ ('k' :: 'e' :: 'y' :: (w3 ++ '"' :: (kv ++ '"' :: rest))))))
      hw1s (word_char_not_space hn0w)
    simpa using this
  obtain ⟨hword_take, hword_drop⟩ := takeWhile_word_name (n0 :: name') w2
    (mid ++ ('k' :: 'e' :: 'y' :: (w3 ++ '"' :: (kv ++ '"' :: rest)))) hnamew hw2s
  have hspace2 : (w2 ++ '{' ::
      (mid ++ ('k' :: 'e' :: 'y' :: (w3 ++ '"' :: (kv ++ '"' :: rest))))).dropWhile isPySpace
      = '{' :: (mid ++ ('k' :: 'e' :: 'y' :: (w3 ++ '"' :: (kv ++ '"' :: rest)))) :=
    dropWhile_space_then_brace w2 _ hw2s
  have hscan : lazyKeyScan (mid ++ ('k' :: 'e' :: 'y' :: (w3 ++ '"' :: (kv ++ '"' :: rest))))
      = some (kv, rest) := by
    rw [lazyKeyScan_through mid _ hmid hfail]
    exact lazyKeyScan_of_tryKeyTail (tryKeyTail_build w3 kv rest hw3 hw3s hkv hkvq)
  have hw1e : w1.isEmpty = false := by
    cases w1 with
    | nil => exact absurd rfl hw1
    | cons a b => rfl
  simp only [matchAt, hml, hfront1, hdrop1, hword_take, hword_drop, hspace2, hscan, hw1e,
    Bool.false_eq_true, if_false, List.isEmpty_cons]

/-! ## Claim C4 (amended): what the pattern tolerates around the brace -/

/-- C4 amended: between the entity identifier and the opening brace the
pattern tolerates only whitespace (`\s*`), and after the opening brace it
tolerates arbitrary non-open-brace characters up to the first key clause.
For every text of that shape the Extractor records the identifier with the
quoted string as its raw key clause (as a match, followed by the matches of
the remainder). -/
theorem C4_amended_tolerance (w1 name w2 mid w3 kv rest : List Char)
    (hw1 : w1 ≠ []) (hw1s : ∀ c ∈ w1, isPySpace c = true)
    (hname : name ≠ []) (hnamew : ∀ c ∈ name, isWordChar c = true)
    (hw2s : ∀ c ∈ w2, isPySpace c = true)
    (hmid : ∀ c ∈ mid, (c == '{') = false)
    (hfail : ∀ i, i < mid.length →
      tryKeyTail (mid.drop i ++ ('k' :: 'e' :: 'y' :: (w3 ++ '"' :: (kv ++ '"' :: rest)))) = none)
    (hw3 : w3 ≠ []) (hw3s : ∀ c ∈ w3, isPySpace c = true)
    (hkv : kv ≠ []) (hkvq : ∀ c ∈ kv, (c != '"') = true) :
    findAll ('l' :: 'i' :: 's' :: 't' ::
        (w1 ++ (name ++ (w2 ++ '{' ::
          (mid ++ ('k' :: 'e' :: 'y' :: (w3 ++ '"' :: (kv ++ '"' :: rest))))))))
      = (name, kv) :: findAll rest :=
  findAll_cons_of_matchAt
    (matchAt_build w1 name w2 mid w3 kv rest hw1 hw1s hname hnamew hw2s hmid hfail hw3 hw3s
      hkv hkvq)

/-- Witness for the amended C4: `list Foo { x; key "a"; }` — non-whitespace
filler `x; ` after the brace is tolerated. -/
theorem C4_witness :
    findAll ('l' :: 'i' :: 's' :: 't' ::
        ([' '] ++ (['F', 'o', 'o'] ++ ([' '] ++ '{' ::
          ([' ', 'x', ';', ' '] ++ ('k' :: 'e' :: 'y' ::
            ([' '] ++ '"' :: (['a'] ++ '"' :: [';', ' ', '}']))))))))
      = (['F', 'o', 'o'], ['a']) :: findAll [';', ' ', '}'] :=
  C4_amended_tolerance [' '] ['F', 'o', 'o'] [' '] [' ', 'x', ';', ' '] [' '] ['a'] [';', ' ', '}']
    (by decide) (by decide) (by decide) (by decide) (by decide) (by decide) (by decide)
    (by decide) (by decide) (by decide) (by decide)

/-! ## Dict lemmas: lookup, keys, last-write-wins folds -/

theorem dictLookup_dictInsert (d : List (String × PyVal)) (k : String) (v : PyVal) (n : String) :
    dictLookup n (dictInsert d k v) = if k = n then some v else dictLookup n d := by
  induction d with
  | nil => simp [dictInsert, dictLookup]
  | cons p d ih =>
    by_cases hpk : p.1 = k
    · by_cases hkn : k = n
      · simp [dictInsert, hpk, dictLookup, hkn]
      · have hpn : ¬p.1 = n := by rw [hpk]; exact hkn
        simp [dictInsert, hpk, dictLookup, hkn, hpn]
    · by_cases hpn : p.1 = n
      · have hkn : ¬k = n := fun h => hpk (hpn.trans h.symm)
        rw [show dictInsert (p :: d) k v = p :: dictInsert d k v from by simp [dictInsert, hpk]]
        simp [dictLookup, hpn, hkn]
      · simp [dictInsert, hpk, dictLookup, hpn, ih]

theorem dictKeys_dictInsert (d : List (String × PyVal)) (k : String) (v : PyVal) :
    dictKeys (dictInsert d k v)
      = if k ∈ dictKeys d then dictKeys d else dictKeys d ++ [k] := by
  induction d with
  | nil => simp [dictInsert, dictKeys]
  | cons p d ih =>
    by_cases hpk : p.1 = k
    · simp [dictInsert, hpk, dictKeys]
    · have hkp : ¬k = p.1 := fun h => hpk h.symm
      simp only [dictInsert, if_neg hpk, dictKeys, List.map_cons] at ih ⊢
      rw [ih]
      by_cases hk : k ∈ d.map Prod.fst
      · simp [hk, hkp]
      · simp [hk, hkp]

theorem nodup_dictKeys_dictInsert {d : List (String × PyVal)} (k : String) (v : PyVal)
    (h : (dictKeys d).Nodup) : (dictKeys (dictInsert d k v)).Nodup := by
  rw [dictKeys_dictInsert]
  by_cases hk : k ∈ dictKeys d
  · rwa [if_pos hk]
  · rw [if_neg hk]
    simp [List.nodup_append, h, hk]

theorem nodup_dictKeys_foldl_insert (l : List (String × PyVal)) :
    ∀ d0 : List (String × PyVal), (dictKeys d0).Nodup →
      (dictKeys (l.foldl (fun a p => dictInsert a p.1 p.2) d0)).Nodup := by
  induction l with
  | nil => intro d0 h; exact h
  | cons p l ih =>
    intro d0 h
    exact ih (dictInsert d0 p.1 p.2) (nodup_dictKeys_dictInsert p.1 p.2 h)

theorem optOr_eq_or (a b : Option PyVal) : optOr a b = a.or b := by
  cases a <;> rfl

theorem optOr_none_right (a : Option PyVal) : optOr a none = a := by
  cases a <;> rfl

theorem optOr_assoc (a b c : Option PyVal) : optOr (optOr a b) c = optOr a (optOr b c) := by
  cases a <;> rfl

theorem lastVal_nil (n : String) : lastVal n [] = none := rfl

theorem lastVal_append (n : String) (u w : List (String × PyVal)) :
    lastVal n (u ++ w) = optOr (lastVal n w) (lastVal n u) := by
  simp only [lastVal, List.filter_append, List.getLast?_append, optOr_eq_or]
  cases (w.filter (fun p => p.1 == n)).getLast? <;>
    cases (u.filter (fun p => p.1 == n)).getLast? <;> rfl

theorem lastVal_singleton (n : String) (p : String × PyVal) :
    lastVal n [p] = if p.1 = n then some p.2 else none := by
  by_cases h : p.1 = n <;> simp [lastVal, List.filter_cons, h]

theorem dictLookup_foldl_insert (l : List (String × PyVal)) (d0 : List (String × PyVal))
    (n : String) :
    dictLookup n (l.foldl (fun a p => dictInsert a p.1 p.2) d0)
      = optOr (lastVal n l) (dictLookup n d0) := by
  induction l using List.reverseRecOn with
  | nil => simp [lastVal_nil, optOr]
  | append_singleton l p ih =>
    rw [List.foldl_append, List.foldl_cons, List.foldl_nil, dictLookup_dictInsert, ih,
        lastVal_append, lastVal_singleton]
    by_cases hpn : p.1 = n
    · rw [if_pos hpn, if_pos hpn]
      rfl
    · rw [if_neg hpn, if_neg hpn]
      rfl

theorem dictLookup_dictUpdate (d other : List (String × PyVal)) (n : String) :
    dictLookup n (dictUpdate d other) = optOr (lastVal n other) (dictLookup n d) :=
  dictLookup_foldl_insert other d n

theorem mem_dictKeys_of_dictLookup {d : List (String × PyVal)} {n : String} {v : PyVal}
    (h : dictLookup n d = some v) : n ∈ dictKeys d := by
  induction d with
  | nil => exact absurd h (by simp [dictLookup])
  | cons p d ih =>
    simp only [dictLookup] at h
    by_cases hpn : p.1 = n
    · simp [dictKeys, hpn]
    · rw [if_neg hpn] at h
      simp [dictKeys, List.mem_map] at ih ⊢
      exact Or.inr (ih h)

theorem filter_eq_nil_of_not_mem_dictKeys {d : List (String × PyVal)} {n : String}
    (h : n ∉ dictKeys d) : d.filter (fun p => p.1 == n) = [] := by
  rw [List.filter_eq_nil_iff]
  intro p hp
  simp only [beq_iff_eq]
  intro hpn
  exact h (hpn ▸ List.mem_map_of_mem Prod.fst hp)

theorem lastVal_eq_dictLookup_of_nodup {d : List (String × PyVal)} (n : String)
    (h : (dictKeys d).Nodup) : lastVal n d = dictLookup n d := by
  induction d with
  | nil => rfl
  | cons p d ih =>
    simp only [dictKeys, List.map_cons, List.nodup_cons] at h
    obtain ⟨hp, hd⟩ := h
    by_cases hpn : p.1 = n
    · have : d.filter (fun p => p.1 == n) = [] :=
        filter_eq_nil_of_not_mem_dictKeys (fun hm => hp (hpn ▸ hm))
      simp [lastVal, List.filter_cons, hpn, this, dictLookup]
    · simp only [lastVal, List.filter_cons] at ih ⊢
      simp only [beq_iff_eq, hpn, if_false, ite_false]
      rw [ih hd]
      simp [dictLookup, hpn]

theorem dictLookup_extract_keys (c : String) (n : String) :
    dictLookup n (extract_keys_using_regex c) = lastVal n (preOf c) := by
  rw [extract_keys_using_regex,
      show (findAll c.data).foldl (fun d m => dictInsert d (String.mk m.1) (processKey m.2)) []
         = (preOf c).foldl (fun a p => dictInsert a p.1 p.2) [] from
        (List.foldl_map (fun m => (String.mk m.1, processKey m.2))
          (fun a p => dictInsert a p.1 p.2) (findAll c.data) []).symm,
      dictLookup_foldl_insert]
  exact optOr_none_right _

theorem nodup_dictKeys_extract_keys (c : String) :
    (dictKeys (extract_keys_using_regex c)).Nodup := by
  rw [extract_keys_using_regex,
      show (findAll c.data).foldl (fun d m => dictInsert d (String.mk m.1) (processKey m.2)) []
         = (preOf c).foldl (fun a p => dictInsert a p.1 p.2) [] from
        (List.foldl_map (fun m => (String.mk m.1, processKey m.2))
          (fun a p => dictInsert a p.1 p.2) (findAll c.data) []).symm]
  exact nodup_dictKeys_foldl_insert (preOf c) [] (by simp [dictKeys])

theorem lastVal_extract_keys_opt (o : Option String) (n : String) :
    lastVal n (extract_keys_opt o) = lastVal n (preOpt o) := by
  cases o with
  | none => rfl
  | some c =>
    rw [show extract_keys_opt (some c) = extract_keys_using_regex c from rfl,
        show preOpt (some c) = preOf c from rfl,
        lastVal_eq_dictLookup_of_nodup n (nodup_dictKeys_extract_keys c),
        dictLookup_extract_keys]

theorem preAll_append_singleton (cs : List (Option String)) (o : Option String) :
    preAll (cs ++ [o]) = preAll cs ++ preOpt o := by
  cases o <;> simp [preAll, preOpt, List.filterMap_append]

theorem dictLookup_foldl_update (cs : List (Option String)) (d0 : List (String × PyVal))
    (n : String) :
    dictLookup n (cs.foldl (fun a c => dictUpdate a (extract_keys_opt c)) d0)
      = optOr (lastVal n (preAll cs)) (dictLookup n d0) := by
  induction cs using List.reverseRecOn with
  | nil => simp [preAll, lastVal_nil, optOr]
  | append_singleton cs o ih =>
    rw [List.foldl_append, List.foldl_cons, List.foldl_nil, dictLookup_dictUpdate, ih,
        preAll_append_singleton, lastVal_append, lastVal_extract_keys_opt, optOr_assoc]

theorem nodup_dictKeys_foldl_update (cs : List (Option String)) :
    ∀ d0 : List (String × PyVal), (dictKeys d0).Nodup →
      (dictKeys (cs.foldl (fun a c => dictUpdate a (extract_keys_opt c)) d0)).Nodup := by
  induction cs with
  | nil => intro d0 h; exact h
  | cons o cs ih =>
    intro d0 h
    exact ih (dictUpdate d0 (extract_keys_opt o)) (nodup_dictKeys_foldl_insert _ d0 h)

theorem parseSelected_as_fold (entries : List ZipEntry) :
    parseSelected entries
      = ((extract_yang_files entries).map (fun e => e.content)).foldl
          (fun a c => dictUpdate a (extract_keys_opt c)) [] := by
  rw [parseSelected, List.foldl_map]

theorem preAll_selected (entries : List ZipEntry) :
    preAll ((extract_yang_files entries).map (fun e => e.content))
      = (selectedMatches entries).map (fun m => (String.mk m.1, processKey m.2)) := by
  rw [preAll, selectedMatches, List.filterMap_map]
  simp only [Function.comp_def, id_eq]
  rw [List.map_flatten, List.map_map]
  rfl

/-! ## Claim C3: last write wins on entity-name collisions -/

/-- C3: whenever an entity name is contributed several times across the
selected members (or within one member), the run completes and the final
mapping holds exactly one entry for it, whose value comes from the
occurrence processed last (members in listing order, declarations in
textual order); key lists are never merged. -/
theorem C3_last_write_wins (entries : List ZipEntry) (n : String) (m : List Char × List Char)
    (h : ((selectedMatches entries).filter (fun p => String.mk p.1 == n)).getLast? = some m) :
    ∃ d, extract_primary_keys_from_zip entries = Except.ok d ∧
      dictLookup n d = some (processKey m.2) ∧ (dictKeys d).count n = 1 := by
  have hsel : (extract_yang_files entries).isEmpty = false := by
    cases hE : extract_yang_files entries with
    | nil =>
      rw [selectedMatches, hE] at h
      simp at h
    | cons a l => rfl
  have hok : extract_primary_keys_from_zip entries = Except.ok (parseSelected entries) := by
    rw [extract_primary_keys_from_zip, if_neg (by simp [hsel])]
  have hlook : dictLookup n (parseSelected entries)
      = lastVal n ((selectedMatches entries).map (fun m => (String.mk m.1, processKey m.2))) := by
    rw [parseSelected_as_fold, dictLookup_foldl_update, preAll_selected]
    exact optOr_none_right _
  have hmap : lastVal n ((selectedMatches entries).map (fun m => (String.mk m.1, processKey m.2)))
      = (((selectedMatches entries).filter (fun p => String.mk p.1 == n)).getLast?).map
          (fun m => processKey m.2) := by
    rw [lastVal, List.filter_map, List.getLast?_map, Option.map_map]
    rfl
  have h1 : dictLookup n (parseSelected entries) = some (processKey m.2) := by
    rw [hlook, hmap, h]
    rfl
  refine ⟨parseSelected entries, hok, h1, ?_⟩
  have hnodup : (dictKeys (parseSelected entries)).Nodup := by
    rw [parseSelected_as_fold]
    exact nodup_dictKeys_foldl_update _ [] (by simp [dictKeys])
  exact List.count_eq_one_of_mem hnodup (mem_dictKeys_of_dictLookup h1)

/-- Witness for C3: two members both declaring `list Foo`; the run completes
and the mapping keeps only the second member's key. -/
theorem C3_witness :
    ((selectedMatches
        [⟨"m1-a.yang", some "list Foo \x7b key \"a\"; \x7d"⟩,
         ⟨"m2-b.yang", some "list Foo \x7b key \"b\"; \x7d"⟩]).filter
      (fun p => String.mk p.1 == "Foo")).getLast? = some (['F', 'o', 'o'], ['b']) ∧
    (∃ d, extract_primary_keys_from_zip
        [⟨"m1-a.yang", some "list Foo \x7b key \"a\"; \x7d"⟩,
         ⟨"m2-b.yang", some "list Foo \x7b key \"b\"; \x7d"⟩] = Except.ok d ∧
      dictLookup "Foo" d = some (processKey ['b']) ∧
      (dictKeys d).count "Foo" = 1) :=
  ⟨by decide, C3_last_write_wins _ "Foo" (['F', 'o', 'o'], ['b']) (by decide)⟩

/-! ## Claim C5: per-member failures are isolated -/

theorem parseSelected_eq_mergeAll (entries : List ZipEntry) :
    parseSelected entries
      = mergeAll ((extract_yang_files entries).filterMap (fun e => e.content)) := by
  rw [parseSelected, mergeAll]
  suffices h : ∀ (l : List ZipEntry) (d0 : List (String × PyVal)),
      l.foldl (fun acc e => dictUpdate acc (extract_keys_opt e.content)) d0
        = (l.filterMap (fun e => e.content)).foldl
            (fun acc c => dictUpdate acc (extract_keys_using_regex c)) d0 by
    exact h _ []
  intro l
  induction l with
  | nil => intro d0; rfl
  | cons e l ih =>
    intro d0
    cases hc : e.content with
    | none =>
      rw [List.foldl_cons, List.filterMap_cons]
      simp only [hc, extract_keys_opt]
      exact ih d0
    | some c =>
      rw [List.foldl_cons, List.filterMap_cons]
      simp only [hc, extract_keys_opt]
      rw [List.foldl_cons]
      exact ih (dictUpdate d0 (extract_keys_using_regex c))

/-- C5: a selected member whose content cannot be opened contributes the
empty mapping and the loop continues, so whenever the run completes, the
mapping it returns equals the merge of the per-member mappings of exactly
the members that succeeded. -/
theorem C5_partial_results (entries : List ZipEntry) (d : List (String × PyVal))
    (h : extract_primary_keys_from_zip entries = Except.ok d) :
    d = mergeAll ((extract_yang_files entries).filterMap (fun e => e.content)) := by
  rw [extract_primary_keys_from_zip] at h
  by_cases he : (extract_yang_files entries).isEmpty = true
  · rw [if_pos he] at h
    by_cases hf : sampleDiagnosticFails entries = true
    · rw [if_pos hf] at h
      exact absurd h (by simp)
    · rw [if_neg hf] at h
      injection h with h
      rw [← h]
      exact parseSelected_eq_mergeAll entries
  · rw [if_neg he] at h
    injection h with h
    rw [← h]
    exact parseSelected_eq_mergeAll entries

/-- Witness for C5: an archive with one unreadable and one readable selected
member — the run completes with the readable member's mapping. -/
theorem C5_witness :
    extract_primary_keys_from_zip
        [⟨"m1-a.yang", none⟩, ⟨"m2-b.yang", some "list Foo \x7b key \"x\"; \x7d"⟩]
      = Except.ok [("Foo", PyVal.str "x")] ∧
    [("Foo", PyVal.str "x")]
      = mergeAll ((extract_yang_files
          [⟨"m1-a.yang", none⟩,
           ⟨"m2-b.yang", some "list Foo \x7b key \"x\"; \x7d"⟩]).filterMap
            (fun e => e.content)) :=
  ⟨by rfl, C5_partial_results _ _ (by rfl)⟩

/-! ## Tokenizing the emitted document -/

theorem tokenize_string (s r : List Char) (h : ∀ c ∈ s, (c != '"') = true) :
    tokenize ('"' :: (s ++ '"' :: r)) = (tokenize r).map (fun ts => JTok.str s :: ts) := by
  have hd : (s ++ '"' :: r).dropWhile (fun x => x != '"') = '"' :: r :=
    dropWhile_frontier (fun x => x != '"') s '"' r h (by decide)
  have ht : (s ++ '"' :: r).takeWhile (fun x => x != '"') = s :=
    takeWhile_frontier (fun x => x != '"') s '"' r h (by decide)
  rw [tokenize]
  simp only [List.length_cons, tokenizeAux, beq_self_eq_true, if_true, hd, ht]
  rw [tokenizeAux_adequate (s ++ '"' :: r).length r
    (by simp only [List.length_append, List.length_cons]; omega)]

theorem jsonPlain_ne_quote {s : String} (h : jsonPlainString s = true) :
    ∀ c ∈ s.data, (c != '"') = true := by
  intro c hc
  have h' : jsonPlainChar c = true := by
    rw [jsonPlainString, List.all_eq_true] at h
    exact h c hc
  rw [jsonPlainChar] at h'
  simp only [Bool.and_eq_true] at h'
  exact h'.1.2

theorem tokenize_quoteStr (s : String) (r : List Char) (h : jsonPlainString s = true) :
    tokenize (quoteStr s ++ r) = (tokenize r).map (fun ts => JTok.str s.data :: ts) := by
  have hshape : quoteStr s ++ r = '"' :: (s.data ++ '"' :: r) := by
    simp [quoteStr]
  rw [hshape, tokenize_string s.data r (jsonPlain_ne_quote h)]

theorem tokenize_emit_items (xs : List String) (r : List Char)
    (h : ∀ s ∈ xs, jsonPlainString s = true) :
    tokenize (emitItemsRest xs ++ r)
      = (tokenize r).map (fun ts => valToks.itemsRestToks xs ++ ts) := by
  induction xs with
  | nil =>
    show tokenize ('\n' :: ' ' :: ' ' :: ']' :: r) = _
    rw [tokenize_newline, tokenize_blank, tokenize_blank, tokenize_rbrack]
    cases tokenize r <;> rfl
  | cons s xs ih =>
    have hshape : emitItemsRest (s :: xs) ++ r
        = ',' :: '\n' :: ' ' :: ' ' :: ' ' :: ' ' :: (quoteStr s ++ (emitItemsRest xs ++ r)) := by
      simp [emitItemsRest]
    rw [hshape, tokenize_comma, tokenize_newline, tokenize_blank, tokenize_blank,
        tokenize_blank, tokenize_blank, tokenize_quoteStr s _ (h s (by simp)),
        ih (fun x hx => h x (by simp [hx]))]
    cases tokenize r <;> simp [valToks.itemsRestToks]

theorem tokenize_emit_val (v : PyVal) (r : List Char) (h : jsonPlainVal v = true) :
    tokenize (emitVal v ++ r) = (tokenize r).map (fun ts => valToks v ++ ts) := by
  cases v with
  | str s =>
    show tokenize (quoteStr s ++ r) = _
    rw [tokenize_quoteStr s r (by simpa [jsonPlainVal] using h)]
    cases tokenize r <;> rfl
  | list l =>
    cases l with
    | nil =>
      show tokenize ('[' :: ']' :: r) = _
      rw [tokenize_lbrack, tokenize_rbrack]
      cases tokenize r <;> rfl
    | cons x xs =>
      have hall : ∀ s ∈ x :: xs, jsonPlainString s = true := by
        simpa [jsonPlainVal, List.all_eq_true] using h
      have hshape : emitVal (.list (x :: xs)) ++ r
          = '[' :: '\n' :: ' ' :: ' ' :: ' ' :: ' ' ::
              (quoteStr x ++ (emitItemsRest xs ++ r)) := by
        simp [emitVal]
      rw [hshape, tokenize_lbrack, tokenize_newline, tokenize_blank, tokenize_blank,
          tokenize_blank, tokenize_blank, tokenize_quoteStr x _ (hall x (by simp)),
          tokenize_emit_items xs r (fun s hs => hall s (by simp [hs]))]
      cases tokenize r <;> simp [valToks]

theorem tokenize_emit_entries (es : List (String × PyVal)) (r : List Char)
    (h : ∀ p ∈ es, jsonPlainString p.1 = true ∧ jsonPlainVal p.2 = true) :
    tokenize (emitEntriesRest es ++ r)
      = (tokenize r).map (fun ts => entriesRestToks es ++ ts) := by
  induction es with
  | nil =>
    show tokenize ('\n' :: '}' :: r) = _
    rw [tokenize_newline, tokenize_rbrace]
    cases tokenize r <;> rfl
  | cons p es ih =>
    have hshape : emitEntriesRest (p :: es) ++ r
        = ',' :: '\n' :: ' ' :: ' ' ::
            (quoteStr p.1 ++ (':' :: ' ' :: (emitVal p.2 ++ (emitEntriesRest es ++ r)))) := by
      simp [emitEntriesRest]
    rw [hshape, tokenize_comma, tokenize_newline, tokenize_blank, tokenize_blank,
        tokenize_quoteStr p.1 _ (h p (by simp)).1, tokenize_colon, tokenize_blank,
        tokenize_emit_val p.2 _ (h p (by simp)).2,
        ih (fun q hq => h q (by simp [hq]))]
    cases tokenize r <;> simp [entriesRestToks]

theorem tokenize_dumps (d : List (String × PyVal)) (h : jsonPlainMapping d = true) :
    tokenize (dumps d) = some (dumpToks d) := by
  have h' : ∀ p ∈ d, jsonPlainString p.1 = true ∧ jsonPlainVal p.2 = true := by
    rw [jsonPlainMapping, List.all_eq_true] at h
    intro p hp
    have := h p hp
    simp only [Bool.and_eq_true] at this
    exact this
  cases d with
  | nil => rfl
  | cons p es =>
    have hshape : dumps (p :: es)
        = '{' :: '\n' :: ' ' :: ' ' ::
            (quoteStr p.1 ++ (':' :: ' ' :: (emitVal p.2 ++ (emitEntriesRest es ++ [])))) := by
      simp [dumps]
    rw [hshape, tokenize_lbrace, tokenize_newline, tokenize_blank, tokenize_blank,
        tokenize_quoteStr p.1 _ (h' p (by simp)).1, tokenize_colon, tokenize_blank,
        tokenize_emit_val p.2 _ (h' p (by simp)).2,
        tokenize_emit_entries es [] (fun q hq => h' q (by simp [hq]))]
    simp [dumpToks, tokenize, tokenizeAux]

/-! ## Parsing the emitted token sequence -/

theorem parseSM_items (xs : List String) :
    ∀ (k : List Char) (items : List String) (acc : List (String × PyVal)) (ts : List JTok),
      parseSM acc (.inListComma k items) (valToks.itemsRestToks xs ++ ts)
        = parseSM (acc ++ [(String.mk k, PyVal.list (items ++ xs))]) .afterEntry ts := by
  induction xs with
  | nil =>
    intro k items acc ts
    show parseSM (acc ++ [(String.mk k, PyVal.list items)]) .afterEntry ts = _
    rw [List.append_nil]
  | cons s xs ih =>
    intro k items acc ts
    show parseSM acc (.inListComma k (items ++ [String.mk s.data]))
        (valToks.itemsRestToks xs ++ ts) = _
    rw [ih, List.append_assoc]
    rfl

theorem parseSM_val (v : PyVal) (k : List Char) (acc : List (String × PyVal)) (ts : List JTok) :
    parseSM acc (.expectVal k) (valToks v ++ ts)
      = parseSM (acc ++ [(String.mk k, v)]) .afterEntry ts := by
  cases v with
  | str s => rfl
  | list l =>
    cases l with
    | nil => rfl
    | cons x xs =>
      show parseSM acc (.inListComma k [String.mk x.data]) (valToks.itemsRestToks xs ++ ts) = _
      rw [parseSM_items]
      rfl

theorem parseSM_entries (es : List (String × PyVal)) :
    ∀ acc : List (String × PyVal),
      parseSM acc .afterEntry (entriesRestToks es) = some (acc ++ es) := by
  induction es with
  | nil =>
    intro acc
    show (if ([] : List JTok).isEmpty then some acc else none) = some (acc ++ [])
    rw [List.append_nil]
    rfl
  | cons p es ih =>
    intro acc
    show parseSM acc (.expectVal p.1.data) (valToks p.2 ++ entriesRestToks es) = _
    rw [parseSM_val, ih, List.append_assoc]
    rfl

/-! ## Claim C8: serialize-then-parse round trip -/

/-- C8: serializing a result mapping to the 2-space-indented output document
and parsing the document back yields the original mapping, scalar values
equal as strings and multi-key values equal as ordered sequences.  The
hypothesis restricts key and value strings to characters the serializer
writes without escape sequences (every string the extractor can store in
practice is of this form up to escaping, which the model omits). -/
theorem C8_roundtrip (d : List (String × PyVal)) (h : jsonPlainMapping d = true) :
    loads (dumps d) = some d := by
  rw [loads, tokenize_dumps d h]
  cases d with
  | nil => rfl
  | cons p es =>
    show parseSM [] (.expectVal p.1.data) (valToks p.2 ++ entriesRestToks es) = some (p :: es)
    rw [parseSM_val, parseSM_entries]
    rfl

/-- Witness for C8 at a mapping with a scalar key, a two-element key list
and an empty key list. -/
theorem C8_witness :
    jsonPlainMapping
        [("Foo", PyVal.str "bar"), ("Baz", PyVal.list ["a", "b"]), ("E", PyVal.list [])]
      = true ∧
    loads (dumps
        [("Foo", PyVal.str "bar"), ("Baz", PyVal.list ["a", "b"]), ("E", PyVal.list [])])
      = some [("Foo", PyVal.str "bar"), ("Baz", PyVal.list ["a", "b"]), ("E", PyVal.list [])] :=
  ⟨by decide, C8_roundtrip _ (by decide)⟩

end YangExtract
